import Mathlib

/-!
Verification development for the `GibbsOpt` constructor of
`src/libgibbs/source/optimizer/opt_Gibbs_ctor.cpp` (pycalphad libgibbs).

The constructor is embedded shallowly: expression trees (`boost::spirit::utree`
restricted to the shapes produced by the symbolic engine) become an inductive
type, the constructor body becomes a pure function from a database, conditions
and an external-collaborator environment to the assembled problem structure.
Collaborators that live outside the translated source file
(`differentiate_utree`, `simplify_utree`, `is_zero_tree`, `build_variable_map`,
the constraint builders, `LocateMinima`, `CompositionSet`) are modelled from
the specification, as noted on each definition.  Machine doubles are modelled
as rationals.
-/

namespace Gibbs

/-- Expression tree: the fragment of `boost::spirit::utree` used by the
symbolic engine — double constants, int constants, named variables, and the
binary operator nodes (`+`, `-`, `*`) built by the AST builders.  Doubles are
modelled as rationals. -/
inductive Expr where
  | numD : ℚ → Expr
  | numI : ℤ → Expr
  | var : String → Expr
  | add : Expr → Expr → Expr
  | sub : Expr → Expr → Expr
  | mul : Expr → Expr → Expr
deriving DecidableEq

/-- `add_trees` from `opt_Gibbs_ctor.cpp` lines 22-28: combine `root_tree`
and `new_tree` under a `+` node. -/
def add_trees (root_tree new_tree : Expr) : Expr :=
  Expr.add root_tree new_tree

/-- Sum of a list of trees, folding with `add_trees`; the empty sum is the
zero constant. -/
def sumTree : List Expr → Expr
  | [] => Expr.numI 0
  | t :: ts => ts.foldl add_trees t

/-- The numeric value of a constant node, if the node is a constant
(`utree.get<double>` on a numeric node; ints convert to doubles). -/
def numVal? : Expr → Option ℚ
  | Expr.numD q => some q
  | Expr.numI n => some (n : ℚ)
  | _ => none

/-- Whether a tree is the zero constant (int or double zero). -/
def isZeroConst (t : Expr) : Bool :=
  numVal? t == some 0

/-- Whether a tree is the one constant (int or double one). -/
def isOneConst (t : Expr) : Bool :=
  numVal? t == some 1

/-- Modelled from the spec (§4.4, the `simplify_utree` collaborator is not in
the translated sources): simplified form of an addition node — constant
folding (an int result stays an int node, otherwise a double node) and the
additive-identity rules. -/
def simpAdd : Expr → Expr → Expr
  | Expr.numI x, Expr.numI y => Expr.numI (x + y)
  | Expr.numI x, Expr.numD y => Expr.numD (x + y)
  | Expr.numD x, Expr.numI y => Expr.numD (x + y)
  | Expr.numD x, Expr.numD y => Expr.numD (x + y)
  | a, b =>
    if isZeroConst a then b
    else if isZeroConst b then a
    else Expr.add a b

/-- Modelled from the spec (§4.4): simplified form of a subtraction node —
constant folding and the right additive identity. -/
def simpSub : Expr → Expr → Expr
  | Expr.numI x, Expr.numI y => Expr.numI (x - y)
  | Expr.numI x, Expr.numD y => Expr.numD (x - y)
  | Expr.numD x, Expr.numI y => Expr.numD (x - y)
  | Expr.numD x, Expr.numD y => Expr.numD (x - y)
  | a, b =>
    if isZeroConst b then a
    else Expr.sub a b

/-- Modelled from the spec (§4.4): simplified form of a multiplication node —
constant folding, zero-propagation and the multiplicative identities. -/
def simpMul : Expr → Expr → Expr
  | Expr.numI x, Expr.numI y => Expr.numI (x * y)
  | Expr.numI x, Expr.numD y => Expr.numD (x * y)
  | Expr.numD x, Expr.numI y => Expr.numD (x * y)
  | Expr.numD x, Expr.numD y => Expr.numD (x * y)
  | a, b =>
    if isZeroConst a || isZeroConst b then Expr.numI 0
    else if isOneConst a then b
    else if isOneConst b then a
    else Expr.mul a b

/-- Modelled from the spec (§4.4, `simplify_utree` in
`libgibbs/include/utils/math_expr.hpp` is not in the translated sources):
canonicalize a tree by constant folding and structural identities, applied
bottom-up. -/
def simplify_utree : Expr → Expr
  | Expr.numD q => Expr.numD q
  | Expr.numI n => Expr.numI n
  | Expr.var s => Expr.var s
  | Expr.add a b => simpAdd (simplify_utree a) (simplify_utree b)
  | Expr.sub a b => simpSub (simplify_utree a) (simplify_utree b)
  | Expr.mul a b => simpMul (simplify_utree a) (simplify_utree b)

/-- Modelled from the spec (§4.4, `differentiate_utree` is not in the
translated sources): exact symbolic partial derivative with respect to a
named variable; sum/difference rule, product rule, derivative of constants
and other variables is the zero constant.  No simplification is attempted. -/
def differentiate_utree : Expr → String → Expr
  | Expr.numD _, _ => Expr.numI 0
  | Expr.numI _, _ => Expr.numI 0
  | Expr.var s, x => if s = x then Expr.numI 1 else Expr.numI 0
  | Expr.add a b, x => Expr.add (differentiate_utree a x) (differentiate_utree b x)
  | Expr.sub a b, x => Expr.sub (differentiate_utree a x) (differentiate_utree b x)
  | Expr.mul a b, x =>
    Expr.add (Expr.mul (differentiate_utree a x) b) (Expr.mul a (differentiate_utree b x))

/-- Modelled from the spec (§4.6, `is_zero_tree` is not in the translated
sources): a tree is a provable zero when it simplifies to the zero
constant. -/
def is_zero_tree (t : Expr) : Bool :=
  isZeroConst (simplify_utree t)

/-- `utree.which() == double_type || int_type` test used by the Jacobian
zero-detection (`opt_Gibbs_ctor.cpp` lines 150-154). -/
def isNumType : Expr → Bool
  | Expr.numD _ => true
  | Expr.numI _ => true
  | _ => false

/-- `utree.get<double>()` on a numeric node (lines 156-158); only ever applied
after `isNumType` holds, other nodes default to `0`. -/
def getDouble : Expr → ℚ
  | Expr.numD q => q
  | Expr.numI n => (n : ℚ)
  | _ => 0

/-- Phase status from the conditions (`PhaseStatus::ENTERED` is the active
status tested by the constructor). -/
inductive PhaseStatus where
  | ENTERED
  | SUSPENDED
deriving DecidableEq

/-- A sublattice exposes an iterator over its species
(`get_species_iterator`). -/
structure Sublattice where
  species : List String
deriving DecidableEq

/-- A phase exposes an iterator over its sublattices
(`get_sublattice_iterator`); `std::distance` from the begin iterator is the
sublattice index. -/
structure Phase where
  sublattices : List Sublattice
deriving DecidableEq

/-- The database exposes an iterable collection of
(phase name, phase definition); the parameter set is opaque to the claims and
omitted. -/
structure Database where
  phases : List (String × Phase)

/-- `evalconditions`: the phase-status map is modelled as a lookup function
(`conditions.phases.find(name)`), the element list and the target
mole-fraction map as lists. -/
structure evalconditions where
  statusOf : String → Option PhaseStatus
  elements : List String
  xfrac : List (String × ℚ)

/-- Map-style insert-or-assign used for `phase_col[i->first] = i->second`
(`std::map::operator[]` assignment). -/
def upsert (m : List (String × Phase)) (k : String) (v : Phase) : List (String × Phase) :=
  if m.any (fun pr => pr.1 == k) then
    m.map (fun pr => if pr.1 == k then (k, v) else pr)
  else m ++ [(k, v)]

/-- Lines 43-49: `phase_col` collects the database phases whose status in the
conditions is present and `ENTERED`. -/
def buildPhaseCol (DB : Database) (cond : evalconditions) : List (String × Phase) :=
  DB.phases.foldl
    (fun acc pr =>
      if cond.statusOf pr.1 = some PhaseStatus.ENTERED then upsert acc pr.1 pr.2 else acc)
    []

/-- Name of a phase-fraction variable (`ss << name << "_FRAC"`, line 98). -/
def phaseFracName (p : String) : String := p ++ "_FRAC"

/-- Name of a site-fraction variable
(`ss << phase << "_" << sublindex << "_" << species`, line 115). -/
def siteFracName (p : String) (si : ℕ) (sp : String) : String :=
  p ++ "_" ++ toString si ++ "_" ++ sp

/-- The species of a sublattice present in the conditions' element list
(lines 107-112). -/
def trackedSpecies (cond : evalconditions) (sl : Sublattice) : List String :=
  sl.species.filter (fun k => cond.elements.contains k)

/-- Modelled from the spec (§4.1, `build_variable_map` is not in the
translated sources): the ordered variable names — one phase-fraction variable
per active phase and one site-fraction variable per
(phase, sublattice, tracked species) triple. -/
def varNames (pc : List (String × Phase)) (cond : evalconditions) : List String :=
  pc.flatMap fun pr =>
    phaseFracName pr.1 ::
      pr.2.sublattices.enum.flatMap fun sl =>
        (trackedSpecies cond sl.2).map fun sp => siteFracName pr.1 sl.1 sp

/-- Modelled from the spec (§4.1): the Variable Index Map — a bidirectional
name/index map, embedded as the list of (name, index) pairs with contiguous
indices `[0, N)`. -/
def build_variable_map (pc : List (String × Phase)) (cond : evalconditions) :
    List (String × ℕ) :=
  (varNames pc cond).enum.map (fun pr => (pr.2, pr.1))

/-- `main_indices.left.at(name)`: index of a variable name (lookups performed
by the constructor are always for names the builder inserted). -/
def lookupIdx (m : List (String × ℕ)) (n : String) : ℕ :=
  ((m.find? (fun pr => pr.1 == n)).map Prod.snd).getD 0

/-- Provenance tag of a constraint, per the spec's design note (§9): the three
constraint kinds added through the Constraint Manager. -/
inductive ConstraintKind where
  | PhaseFractionBalance
  | SublatticeBalance (phase : String) (subl : ℕ)
  | MassBalance (element : String)
deriving DecidableEq

/-- A constraint: provenance tag, name, and the `lhs = rhs` trees. -/
structure Constraint where
  kind : ConstraintKind
  name : String
  lhs : Expr
  rhs : Expr
deriving DecidableEq

/-- Modelled from the spec (§4.3, the `PhaseFractionBalanceConstraint` builder
is not in the translated sources): the sum of all active phases' fraction
variables equals 1. -/
def PhaseFractionBalanceConstraint (pc : List (String × Phase)) : Constraint :=
  Constraint.mk ConstraintKind.PhaseFractionBalance "PHASE_FRAC_BALANCE"
    (sumTree (pc.map fun pr => Expr.var (phaseFracName pr.1)))
    (Expr.numI 1)

/-- Modelled from the spec (§4.3, the `SublatticeBalanceConstraint` builder is
not in the translated sources): the sum of the given species' site fractions
in sublattice `si` of phase `p` equals 1. -/
def SublatticeBalanceConstraint (p : String) (si : ℕ) (specs : List String) : Constraint :=
  Constraint.mk (ConstraintKind.SublatticeBalance p si)
    (p ++ "_" ++ toString si ++ "_SUBL_BALANCE")
    (sumTree (specs.map fun sp => Expr.var (siteFracName p si sp)))
    (Expr.numI 1)

/-- Modelled from the spec (§4.3, the `MassBalanceConstraint` builder is not
in the translated sources): the overall mole fraction of element `e` across
the active phases — each phase's fraction variable times the sum of that
element's site-fraction variables over the sublattices hosting it — equals
the target. -/
def MassBalanceConstraint (pc : List (String × Phase)) (e : String) (target : ℚ) :
    Constraint :=
  Constraint.mk (ConstraintKind.MassBalance e) ("MASS_BALANCE_" ++ e)
    (sumTree (pc.map fun pr =>
      Expr.mul (Expr.var (phaseFracName pr.1))
        (sumTree ((pr.2.sublattices.enum.filter fun sl => sl.2.species.contains e).map
          fun sl => Expr.var (siteFracName pr.1 sl.1 e)))))
    (Expr.numD target)

/-- Modelled from the spec (§3, §6; the `CompositionSet` collaborator is not
in the translated sources): only the optional pinned starting point set
through `set_starting_point` is observable to the constructor. -/
structure CompositionSet where
  starting_point : Option (List ℚ)
deriving DecidableEq

/-- `set_starting_point` (§6) applied to the map entry for phase `p`. -/
def set_starting_point_at (cs : List (String × CompositionSet)) (p : String)
    (v : List ℚ) : List (String × CompositionSet) :=
  cs.map fun pr =>
    if pr.1 == p then (pr.1, CompositionSet.mk (some v)) else pr

/-- The external collaborators queried by the constructor: the minima locator
(`Optimizer::LocateMinima`, keyed here by phase name) and each composition
model's Hessian sparsity contribution (`hessian_sparsity_structure`). -/
structure ExternalEnv where
  LocateMinima : String → List (List ℚ)
  hessian_sparsity : String → List (ℕ × ℕ)

/-- Lines 71-86: loop body over active phases — skip non-`ENTERED` phases,
count the phase, `emplace` a fresh composition set when the key is new, query
the minima locator, and pin the single minimum as the starting point when
exactly one is found; the multiple-minima branch (lines 82-85) performs no
action. -/
def compSetsStep (cond : evalconditions) (env : ExternalEnv)
    (st : ℕ × List (String × CompositionSet)) (pr : String × Phase) :
    ℕ × List (String × CompositionSet) :=
  if cond.statusOf pr.1 ≠ some PhaseStatus.ENTERED then st
  else
    let activephases := st.1 + 1
    let cs :=
      if st.2.any (fun q => q.1 == pr.1) then st.2
      else st.2 ++ [(pr.1, CompositionSet.mk none)]
    let minima := env.LocateMinima pr.1
    let cs :=
      if minima.length == 1 then
        match minima.head? with
        | some m => set_starting_point_at cs pr.1 m
        | none => cs
      else cs
    (activephases, cs)

/-- The fold of `compSetsStep` over the active phase collection, yielding
`activephases` and `comp_sets`. -/
def compSetsFold (DB : Database) (cond : evalconditions) (env : ExternalEnv) :
    ℕ × List (String × CompositionSet) :=
  (buildPhaseCol DB cond).foldl (compSetsStep cond env) (0, [])

/-- The `activephases` counter after the composition-set loop. -/
def activephases (DB : Database) (cond : evalconditions) (env : ExternalEnv) : ℕ :=
  (compSetsFold DB cond env).1

/-- Lines 89-94: the Phase-Fraction Balance constraint, added only when more
than one phase is active. -/
def phaseFracConstraints (DB : Database) (cond : evalconditions) (env : ExternalEnv) :
    List Constraint :=
  if 1 < activephases DB cond env then [PhaseFractionBalanceConstraint (buildPhaseCol DB cond)]
  else []

/-- Lines 95-100: with exactly one active phase, the first phase's fraction
variable index is pushed to the fixed-index list instead. -/
def phaseFracFixed (DB : Database) (cond : evalconditions) (env : ExternalEnv) : List ℕ :=
  if activephases DB cond env = 1 then
    match (buildPhaseCol DB cond).head? with
    | some pr => [lookupIdx (build_variable_map (buildPhaseCol DB cond) cond) (phaseFracName pr.1)]
    | none => []
  else []

/-- Lines 103-129, constraint side: for each active phase and sublattice,
when more than one tracked species is collected, add the Sublattice Balance
constraint for that pair. -/
def sublatticeConstraints (cond : evalconditions) (pc : List (String × Phase)) :
    List Constraint :=
  pc.flatMap fun pr =>
    if cond.statusOf pr.1 ≠ some PhaseStatus.ENTERED then []
    else
      pr.2.sublattices.enum.flatMap fun sl =>
        if 1 < (trackedSpecies cond sl.2).length then
          [SublatticeBalanceConstraint pr.1 sl.1 (trackedSpecies cond sl.2)]
        else []

/-- Lines 103-129, fixed-index side: when exactly one tracked species is
collected for a (phase, sublattice) pair, that species' site-fraction
variable index is pushed to the fixed-index list. -/
def sublatticeFixed (cond : evalconditions) (mi : List (String × ℕ))
    (pc : List (String × Phase)) : List ℕ :=
  pc.flatMap fun pr =>
    if cond.statusOf pr.1 ≠ some PhaseStatus.ENTERED then []
    else
      pr.2.sublattices.enum.flatMap fun sl =>
        if (trackedSpecies cond sl.2).length = 1 then
          [lookupIdx mi (siteFracName pr.1 sl.1 ((trackedSpecies cond sl.2).headD ""))]
        else []

/-- The full ordered constraint list of the Constraint Manager: the mandatory
constraints (lines 88-129) followed by one Mass Balance constraint per
user-specified target mole fraction (lines 133-135). -/
def allConstraints (DB : Database) (cond : evalconditions) (env : ExternalEnv) :
    List Constraint :=
  phaseFracConstraints DB cond env
    ++ sublatticeConstraints cond (buildPhaseCol DB cond)
    ++ cond.xfrac.map (fun pr => MassBalanceConstraint (buildPhaseCol DB cond) pr.1 pr.2)

/-- The full fixed-index list (lines 95-100 and 113-117). -/
def fixedIndices (DB : Database) (cond : evalconditions) (env : ExternalEnv) : List ℕ :=
  phaseFracFixed DB cond env
    ++ sublatticeFixed cond (build_variable_map (buildPhaseCol DB cond) cond)
      (buildPhaseCol DB cond)

/-- `jacobian_entry(cons_index, var_index, false, subtract_tree)`
(line 167). -/
structure jacobian_entry where
  cons_index : ℕ
  var_index : ℕ
  sym : Bool
  ast : Expr
deriving DecidableEq

/-- The `lhs - rhs` subtract tree of a constraint's first derivative with
respect to variable `n` (lines 146-149 and 161-164): both sides are
differentiated and simplified before the `-` node is built. -/
def jacTree (c : Constraint) (n : String) : Expr :=
  Expr.sub (simplify_utree (differentiate_utree c.lhs n))
    (simplify_utree (differentiate_utree c.rhs n))

/-- The Jacobian zero-detection test (lines 150-159): both simplified
derivatives are numeric constants and their numeric values are equal. -/
def zeroTest (c : Constraint) (n : String) : Bool :=
  let lhs := simplify_utree (differentiate_utree c.lhs n)
  let rhs := simplify_utree (differentiate_utree c.rhs n)
  isNumType lhs && isNumType rhs && (getDouble lhs == getDouble rhs)

/-- Lines 143-170: the Jacobian pass — for every variable of the Variable
Index Map and every constraint (indexed by `std::distance`), retain an entry
unless the zero-detection test fires. -/
def jacPass (mi : List (String × ℕ)) (cons : List Constraint) : List jacobian_entry :=
  mi.flatMap fun v =>
    (cons.enum.filter fun pr => !zeroTest pr.2 v.1).map fun pr =>
      jacobian_entry.mk pr.1 v.2 false (jacTree pr.2 v.1)

/-- A Hessian record (`hessian_entry`): the (row, column) variable-index key
and the per-constraint map of second-derivative trees, embedded as an
association list. -/
structure hessian_entry where
  key1 : ℕ
  key2 : ℕ
  asts : List (ℕ × Expr)
deriving DecidableEq

/-- Insert-or-assign on a per-constraint association list
(`h_entry.asts[cons_index] = tree`, line 197). -/
def setAssoc : List (ℕ × Expr) → ℕ → Expr → List (ℕ × Expr)
  | [], k, v => [(k, v)]
  | p :: l, k, v => if p.1 = k then (k, v) :: l else p :: setAssoc l k v

/-- Lookup on a per-constraint association list. -/
def lookupAssoc : List (ℕ × Expr) → ℕ → Option Expr
  | [], _ => none
  | p :: l, k => if p.1 = k then some p.2 else lookupAssoc l k

/-- Lines 192-198: locate the Hessian record for key `(i, jv)`, creating it
if absent, and record the second-derivative tree under constraint index `c`
in its per-constraint map (merging, never dropping other constraints). -/
def storeHess : List hessian_entry → ℕ → ℕ → ℕ → Expr → List hessian_entry
  | [], i, jv, c, t => [hessian_entry.mk i jv [(c, t)]]
  | e :: d, i, jv, c, t =>
    if e.key1 = i ∧ e.key2 = jv then
      hessian_entry.mk e.key1 e.key2 (setAssoc e.asts c t) :: d
    else e :: storeHess d i jv c t

/-- Lookup of the second-derivative tree stored for key `(i, jv)` and
constraint index `c`. -/
def lookupHess : List hessian_entry → ℕ → ℕ → ℕ → Option Expr
  | [], _, _, _ => none
  | e :: d, i, jv, c =>
    if e.key1 = i ∧ e.key2 = jv then lookupAssoc e.asts c else lookupHess d i jv c

/-- Set-style insertion into the sparsity structure
(`std::set::insert`). -/
def insertPair (s : List (ℕ × ℕ)) (p : ℕ × ℕ) : List (ℕ × ℕ) :=
  if s.contains p then s else s ++ [p]

/-- State of the constraint second-derivative pass: the Hessian records and
the global sparsity structure. -/
structure HessState where
  data : List hessian_entry
  sparsity : List (ℕ × ℕ)
deriving DecidableEq

/-- Lines 184-202: body of the second-derivative pass for variable `v` and
Jacobian entry `j` — skip the upper triangle (`i->second > j->var_index`),
differentiate the stored tree, skip provable zeros, otherwise store the tree
under `(i, j->var_index)` for `j->cons_index` and add the pair to the
sparsity structure. -/
def hessStep (v : String × ℕ) (st : HessState) (j : jacobian_entry) : HessState :=
  if j.var_index < v.2 then st
  else
    let cons_second_deriv := differentiate_utree j.ast v.1
    if is_zero_tree cons_second_deriv then st
    else
      HessState.mk (storeHess st.data v.2 j.var_index j.cons_index cons_second_deriv)
        (insertPair st.sparsity (v.2, j.var_index))

/-- Lines 181-204: the full second-derivative pass — for every variable of
the Variable Index Map, every Jacobian entry. -/
def hessianPass (mi : List (String × ℕ)) (jac : List jacobian_entry)
    (st : HessState) : HessState :=
  mi.foldl (fun st v => jac.foldl (hessStep v) st) st

/-- Lines 173-178: union of the composition models' Hessian sparsity
contributions into the global sparsity structure. -/
def objSparsity (env : ExternalEnv) (cs : List (String × CompositionSet))
    (s0 : List (ℕ × ℕ)) : List (ℕ × ℕ) :=
  cs.foldl (fun s pr => (env.hessian_sparsity pr.1).foldl insertPair s) s0

/-- Severity of an observability report; the constructor's configuration
checks report at `critical`, the highest severity. -/
inductive Severity where
  | debug
  | critical
deriving DecidableEq

/-- The members of `GibbsOpt` observable after construction, plus the
observability channel (only the two configuration-validation reports of
lines 55-56 are modelled; debug traces carry no behavior). -/
structure GibbsOut where
  log : List (Severity × String)
  phase_col : List (String × Phase)
  main_indices : List (String × ℕ)
  comp_sets : List (String × CompositionSet)
  constraints : List Constraint
  fixed_indices : List ℕ
  jac_g_trees : List jacobian_entry
  constraint_hessian_data : List hessian_entry
  hess_sparsity_structure : List (ℕ × ℕ)

/-- The `GibbsOpt` constructor (lines 30-207): filter the active phases,
report missing configuration, build the variable map, instantiate the
composition sets, assemble the constraints and fixed indices, run the
Jacobian pass, merge the objective sparsity, and run the constraint
second-derivative pass.  Total: construction never halts or throws. -/
def GibbsOpt (DB : Database) (cond : evalconditions) (env : ExternalEnv) : GibbsOut :=
  let pc := buildPhaseCol DB cond
  let log :=
    (if cond.elements.isEmpty then [(Severity.critical, "No components entered!")] else [])
      ++ (if pc.isEmpty then [(Severity.critical, "No phases found!")] else [])
  let mi := build_variable_map pc cond
  let cons := allConstraints DB cond env
  let jac := jacPass mi cons
  let hp := hessianPass mi jac (HessState.mk [] (objSparsity env (compSetsFold DB cond env).2 []))
  GibbsOut.mk log pc mi (compSetsFold DB cond env).2 cons (fixedIndices DB cond env) jac
    hp.data hp.sparsity

/-! Concrete configurations used to exercise the theorems on closed inputs. -/

/-- Example phase with one sublattice hosting two species. -/
def exPhaseA : Phase := Phase.mk [Sublattice.mk ["X", "Y"]]

/-- Second example phase with the same sublattice model. -/
def exPhaseB : Phase := Phase.mk [Sublattice.mk ["X", "Y"]]

/-- Example database with two phases. -/
def exDB : Database := Database.mk [("ALPHA", exPhaseA), ("BETA", exPhaseB)]

/-- Example conditions: both phases entered, two tracked elements, one target
mole fraction. -/
def exCond : evalconditions :=
  evalconditions.mk
    (fun s => if s = "ALPHA" ∨ s = "BETA" then some PhaseStatus.ENTERED else none)
    ["X", "Y"] [("X", 1/2)]

/-- Example environment: a single minimum for every phase, no objective
sparsity contribution. -/
def exEnv : ExternalEnv := ExternalEnv.mk (fun _ => [[1, 0, 0]]) (fun _ => [])

/-- Environment reporting two minima for every phase (miscibility gap). -/
def exEnvTwo : ExternalEnv :=
  ExternalEnv.mk (fun _ => [[1, 0, 0], [0, 1, 0]]) (fun _ => [])

/-- Single-phase database. -/
def exDBOne : Database := Database.mk [("ALPHA", exPhaseA)]

/-- Conditions with only the single phase entered. -/
def exCondOne : evalconditions :=
  evalconditions.mk
    (fun s => if s = "ALPHA" then some PhaseStatus.ENTERED else none)
    ["X", "Y"] [("X", 1/2)]

/-- Conditions with an empty element list (configuration-validation
failure). -/
def exCondNoElem : evalconditions :=
  evalconditions.mk
    (fun s => if s = "ALPHA" ∨ s = "BETA" then some PhaseStatus.ENTERED else none)
    [] []

/-! Auxiliary lemmas about the active-phase collection. -/

/-- Membership after an insert-or-assign: either an untouched element or the
assigned pair. -/
lemma mem_upsert {m : List (String × Phase)} {k : String} {v : Phase}
    {pr : String × Phase} (h : pr ∈ upsert m k v) : pr ∈ m ∨ pr = (k, v) := by
  unfold upsert at h
  by_cases hany : m.any (fun q => q.1 == k)
  · rw [if_pos hany] at h
    rw [List.mem_map] at h
    obtain ⟨q, hq, hqe⟩ := h
    by_cases hqk : q.1 == k
    · rw [if_pos hqk] at hqe
      exact Or.inr hqe.symm
    · rw [if_neg hqk] at hqe
      exact Or.inl (hqe ▸ hq)
  · rw [if_neg hany] at h
    simpa using h

/-- Every phase collected into `phase_col` has status `ENTERED` in the
conditions. -/
lemma buildPhaseCol_status (DB : Database) (cond : evalconditions) :
    ∀ pr ∈ buildPhaseCol DB cond, cond.statusOf pr.1 = some PhaseStatus.ENTERED := by
  unfold buildPhaseCol
  suffices h : ∀ (l : List (String × Phase)) (acc : List (String × Phase)),
      (∀ pr ∈ acc, cond.statusOf pr.1 = some PhaseStatus.ENTERED) →
      ∀ pr ∈ l.foldl
        (fun acc pr =>
          if cond.statusOf pr.1 = some PhaseStatus.ENTERED then upsert acc pr.1 pr.2 else acc)
        acc,
        cond.statusOf pr.1 = some PhaseStatus.ENTERED by
    exact h DB.phases [] (by simp)
  intro l
  induction l with
  | nil => intro acc hacc pr hpr; exact hacc pr hpr
  | cons a l ih =>
    intro acc hacc pr hpr
    refine ih _ ?_ pr hpr
    intro q hq
    by_cases ha : cond.statusOf a.1 = some PhaseStatus.ENTERED
    · simp only [ha, if_true] at hq
      rcases mem_upsert hq with hqm | hqe
      · exact hacc q hqm
      · rw [hqe]; exact ha
    · simp only [ha, if_false] at hq
      exact hacc q hq

/-- Keys after an insert-or-assign. -/
lemma keys_upsert (m : List (String × Phase)) (k : String) (v : Phase) :
    (upsert m k v).map Prod.fst =
      if m.any (fun q => q.1 == k) then m.map Prod.fst else m.map Prod.fst ++ [k] := by
  unfold upsert
  by_cases hany : m.any (fun q => q.1 == k)
  · simp only [hany, if_true, List.map_map]
    refine List.map_congr_left ?_
    intro q hq
    by_cases hqk : q.1 = k
    · simp [hqk]
    · simp [hqk]
  · simp [hany]

/-- The keys of `phase_col` are pairwise distinct (it is a `std::map`). -/
lemma buildPhaseCol_keys_nodup (DB : Database) (cond : evalconditions) :
    ((buildPhaseCol DB cond).map Prod.fst).Nodup := by
  unfold buildPhaseCol
  suffices h : ∀ (l : List (String × Phase)) (acc : List (String × Phase)),
      (acc.map Prod.fst).Nodup →
      ((l.foldl
        (fun acc pr =>
          if cond.statusOf pr.1 = some PhaseStatus.ENTERED then upsert acc pr.1 pr.2 else acc)
        acc).map Prod.fst).Nodup by
    exact h DB.phases [] (by simp)
  intro l
  induction l with
  | nil => intro acc hacc; exact hacc
  | cons a l ih =>
    intro acc hacc
    refine ih _ ?_
    by_cases ha : cond.statusOf a.1 = some PhaseStatus.ENTERED
    · simp only [ha, if_true]
      rw [keys_upsert]
      by_cases hany : acc.any (fun q => q.1 == a.1)
      · simpa [hany] using hacc
      · simp only [hany, if_false]
        refine List.Nodup.append hacc (List.nodup_singleton _) ?_
        intro x hx hx1
        simp only [List.mem_singleton] at hx1
        subst hx1
        simp only [List.any_eq_true, not_exists, not_and] at hany
        simp only [List.mem_map] at hx
        obtain ⟨q, hq, hqx⟩ := hx
        have := hany q hq
        simp only [beq_iff_eq] at this
        exact this hqx
    · simpa [ha] using hacc

/-- The indices of the Variable Index Map are pairwise distinct. -/
lemma build_variable_map_snd_nodup (pc : List (String × Phase)) (cond : evalconditions) :
    ((build_variable_map pc cond).map Prod.snd).Nodup := by
  unfold build_variable_map
  rw [List.map_map]
  have : (Prod.snd ∘ fun pr : ℕ × String => (pr.2, pr.1)) = Prod.fst := rfl
  rw [this]
  exact List.nodup_enum_map_fst _

/-- In a list of pairs with pairwise-distinct second components, the second
component determines the pair. -/
lemma eq_fst_of_nodup_snd {α β : Type} : ∀ {l : List (α × β)},
    (l.map Prod.snd).Nodup → ∀ {a a' : α} {b : β}, (a, b) ∈ l → (a', b) ∈ l → a = a' := by
  intro l
  induction l with
  | nil => intro _ a a' b h; exact absurd h (List.not_mem_nil _)
  | cons p l ih =>
    intro hnd a a' b h1 h2
    simp only [List.map_cons, List.nodup_cons] at hnd
    obtain ⟨hp, hnd⟩ := hnd
    rcases List.mem_cons.mp h1 with he1 | hm1 <;> rcases List.mem_cons.mp h2 with he2 | hm2
    · exact congrArg Prod.fst (he1.trans he2.symm)
    · exfalso
      apply hp
      have hb : b = p.2 := congrArg Prod.snd he1
      rw [← hb]
      exact List.mem_map.mpr ⟨(a', b), hm2, rfl⟩
    · exfalso
      apply hp
      have hb : b = p.2 := congrArg Prod.snd he2
      rw [← hb]
      exact List.mem_map.mpr ⟨(a, b), hm1, rfl⟩
    · exact ih hnd hm1 hm2

/-! Composition-set loop lemmas. -/

/-- The composition set the loop body leaves behind for a freshly emplaced
phase: the single located minimum when there is exactly one, otherwise no
starting point. -/
def mkCompSet (env : ExternalEnv) (p : String) : CompositionSet :=
  if (env.LocateMinima p).length == 1 then
    match (env.LocateMinima p).head? with
    | some m => CompositionSet.mk (some m)
    | none => CompositionSet.mk none
  else CompositionSet.mk none

/-- `set_starting_point` on a freshly appended entry touches only that
entry. -/
lemma set_starting_point_at_append_fresh {cs : List (String × CompositionSet)}
    {p : String} (hp : p ∉ cs.map Prod.fst) (x : CompositionSet) (m : List ℚ) :
    set_starting_point_at (cs ++ [(p, x)]) p m = cs ++ [(p, CompositionSet.mk (some m))] := by
  unfold set_starting_point_at
  rw [List.map_append]
  congr 1
  · conv_rhs => rw [← List.map_id cs]
    refine List.map_congr_left ?_
    intro q hq
    have hqp : q.1 ≠ p := by
      intro he
      exact hp (List.mem_map.mpr ⟨q, hq, he⟩)
    simp [hqp]
  · simp

/-- The loop body on an entered phase whose key is fresh: count one more
phase and append the composition set described by `mkCompSet`. -/
lemma compSetsStep_fresh (cond : evalconditions) (env : ExternalEnv)
    {pr : String × Phase} (hst : cond.statusOf pr.1 = some PhaseStatus.ENTERED)
    {n : ℕ} {cs : List (String × CompositionSet)} (hfresh : pr.1 ∉ cs.map Prod.fst) :
    compSetsStep cond env (n, cs) pr = (n + 1, cs ++ [(pr.1, mkCompSet env pr.1)]) := by
  unfold compSetsStep
  rw [if_neg (by simp [hst])]
  have hany : cs.any (fun q => q.1 == pr.1) = false := by
    simp only [List.any_eq_false]
    intro q hq
    simp only [beq_iff_eq]
    intro he
    exact hfresh (List.mem_map.mpr ⟨q, hq, he⟩)
  simp only [hany, Bool.false_eq_true, if_false]
  unfold mkCompSet
  cases hmin : env.LocateMinima pr.1 with
  | nil => simp
  | cons m t =>
    cases t with
    | nil =>
      simp only [List.length_cons, List.length_nil, List.head?_cons]
      rw [set_starting_point_at_append_fresh hfresh]
      simp
    | cons m2 t2 => simp

/-- The composition-set loop over a key-distinct, all-entered phase
collection starting from a state disjoint from it. -/
lemma compSetsFold_go (cond : evalconditions) (env : ExternalEnv) :
    ∀ (pc : List (String × Phase)) (n : ℕ) (cs : List (String × CompositionSet)),
      (∀ pr ∈ pc, cond.statusOf pr.1 = some PhaseStatus.ENTERED) →
      ((pc.map Prod.fst).Nodup) →
      (∀ k ∈ pc.map Prod.fst, k ∉ cs.map Prod.fst) →
      pc.foldl (compSetsStep cond env) (n, cs) =
        (n + pc.length, cs ++ pc.map (fun pr => (pr.1, mkCompSet env pr.1))) := by
  intro pc
  induction pc with
  | nil => intro n cs _ _ _; simp
  | cons a pc ih =>
    intro n cs hst hnd hdisj
    have ha : cond.statusOf a.1 = some PhaseStatus.ENTERED := hst a (List.mem_cons_self _ _)
    have hafresh : a.1 ∉ cs.map Prod.fst :=
      hdisj a.1 (List.mem_map.mpr ⟨a, List.mem_cons_self _ _, rfl⟩)
    rw [List.foldl_cons, compSetsStep_fresh cond env ha hafresh]
    simp only [List.map_cons, List.nodup_cons] at hnd
    rw [ih (n + 1) (cs ++ [(a.1, mkCompSet env a.1)])
      (fun pr hpr => hst pr (List.mem_cons_of_mem _ hpr)) hnd.2 ?_]
    · simp only [List.map_cons, List.length_cons, List.append_assoc, List.singleton_append,
        Prod.mk.injEq]
      exact ⟨by omega, trivial⟩
    · intro k hk hmem
      rw [List.map_append, List.mem_append] at hmem
      rcases hmem with hmem | hmem
      · refine hdisj k ?_ hmem
        rw [List.map_cons]
        exact List.mem_cons_of_mem _ hk
      · simp only [List.map_cons, List.map_nil, List.mem_singleton] at hmem
        rw [hmem] at hk
        exact hnd.1 hk

/-- `comp_sets` after the loop: one composition set per collected phase, in
order. -/
lemma compSetsFold_eq (DB : Database) (cond : evalconditions) (env : ExternalEnv) :
    compSetsFold DB cond env =
      ((buildPhaseCol DB cond).length,
        (buildPhaseCol DB cond).map (fun pr => (pr.1, mkCompSet env pr.1))) := by
  unfold compSetsFold
  rw [compSetsFold_go cond env (buildPhaseCol DB cond) 0 []
    (buildPhaseCol_status DB cond) (buildPhaseCol_keys_nodup DB cond) (by simp)]
  simp

/-- In a key-distinct association list, `find?` on a member key returns that
member. -/
lemma find?_of_keys_nodup {α : Type} : ∀ {l : List (String × α)},
    ((l.map Prod.fst).Nodup) → ∀ {p : String} {x : α}, (p, x) ∈ l →
      l.find? (fun q => q.1 == p) = some (p, x) := by
  intro l
  induction l with
  | nil => intro _ p x h; exact absurd h (List.not_mem_nil _)
  | cons q l ih =>
    intro hnd p x h
    simp only [List.map_cons, List.nodup_cons] at hnd
    by_cases hqp : q.1 = p
    · have hqx : q = (p, x) := by
        rcases List.mem_cons.mp h with he | hm
        · exact he.symm
        · exfalso
          exact hnd.1 (hqp ▸ List.mem_map.mpr ⟨(p, x), hm, rfl⟩)
      rw [List.find?_cons_of_pos _ (by simp [hqp])]
      rw [hqx]
    · rw [List.find?_cons_of_neg _ (by simp [hqp])]
      rcases List.mem_cons.mp h with he | hm
      · exact absurd (congrArg Prod.fst he.symm) hqp
      · exact ih hnd.2 hm

/-- A key absent from an association list is counted zero times. -/
lemma countP_key_zero {α : Type} : ∀ {l : List (String × α)} {p : String},
    p ∉ l.map Prod.fst → l.countP (fun q => q.1 == p) = 0 := by
  intro l
  induction l with
  | nil => intro p _; rfl
  | cons q l ih =>
    intro p h
    simp only [List.map_cons, List.mem_cons, not_or] at h
    rw [List.countP_cons]
    rw [ih h.2]
    have hne : q.1 ≠ p := fun he => h.1 he.symm
    simp [hne]

/-- In a key-distinct association list, a member key is counted exactly
once. -/
lemma countP_key_one {α : Type} : ∀ {l : List (String × α)},
    ((l.map Prod.fst).Nodup) → ∀ {p : String} {x : α}, (p, x) ∈ l →
      l.countP (fun q => q.1 == p) = 1 := by
  intro l
  induction l with
  | nil => intro _ p x h; exact absurd h (List.not_mem_nil _)
  | cons q l ih =>
    intro hnd p x h
    simp only [List.map_cons, List.nodup_cons] at hnd
    rw [List.countP_cons]
    by_cases hqp : q.1 = p
    · have hlz : l.countP (fun q => q.1 == p) = 0 := countP_key_zero (hqp ▸ hnd.1)
      simp [hlz, hqp]
    · rcases List.mem_cons.mp h with he | hm
      · exact absurd (congrArg Prod.fst he.symm) hqp
      · rw [ih hnd.2 hm]
        simp [hqp]

/-! Unfolding equations for the constructor's members. -/

/-- The collected phases. -/
lemma GibbsOpt_phase_col (DB : Database) (cond : evalconditions) (env : ExternalEnv) :
    (GibbsOpt DB cond env).phase_col = buildPhaseCol DB cond := rfl

/-- The Variable Index Map member. -/
lemma GibbsOpt_main_indices (DB : Database) (cond : evalconditions) (env : ExternalEnv) :
    (GibbsOpt DB cond env).main_indices =
      build_variable_map (buildPhaseCol DB cond) cond := rfl

/-- The composition-set member. -/
lemma GibbsOpt_comp_sets (DB : Database) (cond : evalconditions) (env : ExternalEnv) :
    (GibbsOpt DB cond env).comp_sets = (compSetsFold DB cond env).2 := rfl

/-- The constraint list member. -/
lemma GibbsOpt_constraints (DB : Database) (cond : evalconditions) (env : ExternalEnv) :
    (GibbsOpt DB cond env).constraints = allConstraints DB cond env := rfl

/-- The fixed-index member. -/
lemma GibbsOpt_fixed_indices (DB : Database) (cond : evalconditions) (env : ExternalEnv) :
    (GibbsOpt DB cond env).fixed_indices = fixedIndices DB cond env := rfl

/-- The Jacobian member. -/
lemma GibbsOpt_jac_g_trees (DB : Database) (cond : evalconditions) (env : ExternalEnv) :
    (GibbsOpt DB cond env).jac_g_trees =
      jacPass (build_variable_map (buildPhaseCol DB cond) cond)
        (allConstraints DB cond env) := rfl

/-- The constraint Hessian member. -/
lemma GibbsOpt_hessian (DB : Database) (cond : evalconditions) (env : ExternalEnv) :
    (GibbsOpt DB cond env).constraint_hessian_data =
      (hessianPass (build_variable_map (buildPhaseCol DB cond) cond)
        (jacPass (build_variable_map (buildPhaseCol DB cond) cond)
          (allConstraints DB cond env))
        (HessState.mk []
          (objSparsity env (compSetsFold DB cond env).2 []))).data := rfl

/-- The observability channel. -/
lemma GibbsOpt_log (DB : Database) (cond : evalconditions) (env : ExternalEnv) :
    (GibbsOpt DB cond env).log =
      (if cond.elements.isEmpty then [(Severity.critical, "No components entered!")] else [])
        ++ (if (buildPhaseCol DB cond).isEmpty then [(Severity.critical, "No phases found!")]
          else []) := rfl

/-! Jacobian-pass lemmas. -/

/-- Membership characterization of the Jacobian pass: an entry exists exactly
for the (variable, indexed constraint) combinations whose zero-detection test
does not fire. -/
lemma mem_jacPass {mi : List (String × ℕ)} {cons : List Constraint}
    {e : jacobian_entry} :
    e ∈ jacPass mi cons ↔
      ∃ v ∈ mi, ∃ pr ∈ cons.enum, zeroTest pr.2 v.1 = false ∧
        e = jacobian_entry.mk pr.1 v.2 false (jacTree pr.2 v.1) := by
  unfold jacPass
  simp only [List.mem_flatMap, List.mem_map, List.mem_filter, Bool.not_eq_eq_eq_not,
    Bool.not_true]
  constructor
  · rintro ⟨v, hv, pr, ⟨hpr, hz⟩, he⟩
    exact ⟨v, hv, pr, hpr, hz, he.symm⟩
  · rintro ⟨v, hv, pr, hpr, hz, he⟩
    exact ⟨v, hv, pr, ⟨hpr, hz⟩, he.symm⟩

/-- Two Jacobian entries with the same (constraint index, variable index) key
are the same entry, provided the Variable Index Map has distinct indices. -/
lemma jacPass_key_unique {mi : List (String × ℕ)} {cons : List Constraint}
    (hnd : (mi.map Prod.snd).Nodup) {e1 e2 : jacobian_entry}
    (h1 : e1 ∈ jacPass mi cons) (h2 : e2 ∈ jacPass mi cons)
    (hc : e1.cons_index = e2.cons_index) (hv : e1.var_index = e2.var_index) :
    e1 = e2 := by
  obtain ⟨v1, hv1, pr1, hpr1, hz1, he1⟩ := mem_jacPass.mp h1
  obtain ⟨v2, hv2, pr2, hpr2, hz2, he2⟩ := mem_jacPass.mp h2
  rw [he1, he2] at hc hv ⊢
  simp only at hc hv
  have hvv : v1 = v2 := by
    have hm1 : (v1.1, v1.2) ∈ mi := by rw [Prod.mk.eta]; exact hv1
    have hm2 : (v2.1, v2.2) ∈ mi := by rw [Prod.mk.eta]; exact hv2
    rw [hv] at hm1
    have hfst : v1.1 = v2.1 := eq_fst_of_nodup_snd hnd hm1 hm2
    exact Prod.ext hfst hv
  have hcc : pr1 = pr2 := by
    have hg1 : cons[pr1.1]? = some pr1.2 := List.mk_mem_enum_iff_getElem?.mp hpr1
    have hg2 : cons[pr2.1]? = some pr2.2 := List.mk_mem_enum_iff_getElem?.mp hpr2
    rw [hc] at hg1
    rw [hg1] at hg2
    exact Prod.ext hc (Option.some.inj hg2)
  rw [hvv, hcc]

/-! Hessian-store lemmas. -/

/-- Lookup of the assigned key after insert-or-assign on a per-constraint
map. -/
lemma lookupAssoc_setAssoc_self : ∀ (l : List (ℕ × Expr)) (k : ℕ) (v : Expr),
    lookupAssoc (setAssoc l k v) k = some v := by
  intro l
  induction l with
  | nil => intro k v; simp [setAssoc, lookupAssoc]
  | cons p l ih =>
    intro k v
    by_cases hpk : p.1 = k
    · simp [setAssoc, lookupAssoc, hpk]
    · simp only [setAssoc, hpk, if_false, lookupAssoc]
      exact ih k v

/-- Lookup of a different key after insert-or-assign on a per-constraint
map. -/
lemma lookupAssoc_setAssoc_ne : ∀ (l : List (ℕ × Expr)) (k : ℕ) (v : Expr) (k2 : ℕ),
    k2 ≠ k → lookupAssoc (setAssoc l k v) k2 = lookupAssoc l k2 := by
  intro l
  induction l with
  | nil =>
    intro k v k2 h
    simp only [setAssoc, lookupAssoc]
    rw [if_neg (fun he => h he.symm)]
  | cons p l ih =>
    intro k v k2 h
    by_cases hpk : p.1 = k
    · simp only [setAssoc, hpk, if_true, lookupAssoc]
      have hne : ¬k = k2 := fun he => h he.symm
      simp [hne]
    · simp only [setAssoc, hpk, if_false, lookupAssoc]
      by_cases hp2 : p.1 = k2
      · simp [hp2]
      · simp only [hp2, if_false]
        exact ih k v k2 h

/-- Lookup of the stored triple after locate-or-create-and-assign. -/
lemma lookupHess_storeHess_self : ∀ (d : List hessian_entry) (i jv c : ℕ) (t : Expr),
    lookupHess (storeHess d i jv c t) i jv c = some t := by
  intro d
  induction d with
  | nil =>
    intro i jv c t
    simp [storeHess, lookupHess, lookupAssoc]
  | cons e d ih =>
    intro i jv c t
    by_cases hek : e.key1 = i ∧ e.key2 = jv
    · simp only [storeHess, if_pos hek, lookupHess, hek]
      exact lookupAssoc_setAssoc_self e.asts c t
    · simp only [storeHess, if_neg hek, lookupHess, hek]
      exact ih i jv c t

/-- Lookup of any other triple after locate-or-create-and-assign. -/
lemma lookupHess_storeHess_ne : ∀ (d : List hessian_entry) (i jv c : ℕ) (t : Expr)
    (i2 jv2 c2 : ℕ), ¬(i2 = i ∧ jv2 = jv ∧ c2 = c) →
    lookupHess (storeHess d i jv c t) i2 jv2 c2 = lookupHess d i2 jv2 c2 := by
  intro d
  induction d with
  | nil =>
    intro i jv c t i2 jv2 c2 h
    simp only [storeHess, lookupHess]
    by_cases hij : i = i2 ∧ jv = jv2
    · rw [if_pos hij]
      have hc2 : c2 ≠ c := fun he => h ⟨hij.1.symm, hij.2.symm, he⟩
      simp only [lookupAssoc]
      rw [if_neg (fun he => hc2 he.symm)]
    · rw [if_neg hij]
  | cons e d ih =>
    intro i jv c t i2 jv2 c2 h
    by_cases hek : e.key1 = i ∧ e.key2 = jv
    · simp only [storeHess, if_pos hek, lookupHess]
      by_cases h2 : e.key1 = i2 ∧ e.key2 = jv2
      · rw [if_pos h2, if_pos h2]
        have hii : i2 = i := h2.1.symm.trans hek.1
        have hjj : jv2 = jv := h2.2.symm.trans hek.2
        have hc2 : c2 ≠ c := fun he => h ⟨hii, hjj, he⟩
        exact lookupAssoc_setAssoc_ne e.asts c t c2 hc2
      · rw [if_neg h2, if_neg h2]
    · simp only [storeHess, if_neg hek, lookupHess]
      by_cases h2 : e.key1 = i2 ∧ e.key2 = jv2
      · rw [if_pos h2, if_pos h2]
      · rw [if_neg h2, if_neg h2]
        exact ih i jv c t i2 jv2 c2 h

/-- Lookup through one step of the second-derivative pass. -/
lemma hessStep_lookup (v : String × ℕ) (st : HessState) (j : jacobian_entry)
    (i jv c : ℕ) :
    lookupHess (hessStep v st j).data i jv c =
      if v.2 ≤ j.var_index ∧ is_zero_tree (differentiate_utree j.ast v.1) = false ∧
          i = v.2 ∧ jv = j.var_index ∧ c = j.cons_index then
        some (differentiate_utree j.ast v.1)
      else lookupHess st.data i jv c := by
  unfold hessStep
  by_cases htri : j.var_index < v.2
  · rw [if_pos htri]
    rw [if_neg (fun h => absurd h.1 (by omega))]
  · rw [if_neg htri]
    by_cases hz : is_zero_tree (differentiate_utree j.ast v.1)
    · rw [if_pos hz]
      rw [if_neg (fun h => by simp [hz] at h)]
    · rw [if_neg hz]
      simp only
      by_cases hkey : i = v.2 ∧ jv = j.var_index ∧ c = j.cons_index
      · rw [if_pos ⟨by omega, by simpa using hz, hkey⟩]
        rw [hkey.1, hkey.2.1, hkey.2.2]
        exact lookupHess_storeHess_self st.data v.2 j.var_index j.cons_index _
      · rw [if_neg (fun h => hkey h.2.2)]
        exact lookupHess_storeHess_ne st.data v.2 j.var_index j.cons_index _ i jv c hkey

/-- A stored triple survives the rest of the inner loop over Jacobian
entries. -/
lemma innerFold_isSome_mono (v : String × ℕ) : ∀ (jac : List jacobian_entry)
    (st : HessState) (i jv c : ℕ),
    (lookupHess st.data i jv c).isSome →
    (lookupHess (jac.foldl (hessStep v) st).data i jv c).isSome := by
  intro jac
  induction jac with
  | nil => intro st i jv c h; exact h
  | cons j jac ih =>
    intro st i jv c h
    rw [List.foldl_cons]
    refine ih (hessStep v st j) i jv c ?_
    rw [hessStep_lookup]
    split
    · rfl
    · exact h

/-- A stored triple survives the rest of the outer loop over variables. -/
lemma hessianPass_isSome_mono : ∀ (mi : List (String × ℕ)) (jac : List jacobian_entry)
    (st : HessState) (i jv c : ℕ),
    (lookupHess st.data i jv c).isSome →
    (lookupHess (hessianPass mi jac st).data i jv c).isSome := by
  intro mi
  induction mi with
  | nil => intro jac st i jv c h; exact h
  | cons v mi ih =>
    intro jac st i jv c h
    unfold hessianPass
    rw [List.foldl_cons]
    exact ih jac _ i jv c (innerFold_isSome_mono v jac st i jv c h)

/-- The inner loop stores the second derivative for every eligible,
non-provably-zero Jacobian entry. -/
lemma innerFold_sets (v : String × ℕ) : ∀ (jac : List jacobian_entry) (st : HessState),
    ∀ j ∈ jac, v.2 ≤ j.var_index →
      is_zero_tree (differentiate_utree j.ast v.1) = false →
      (lookupHess (jac.foldl (hessStep v) st).data v.2 j.var_index j.cons_index).isSome := by
  intro jac
  induction jac with
  | nil => intro st j h; exact absurd h (List.not_mem_nil _)
  | cons j2 jac ih =>
    intro st j hj htri hz
    rw [List.foldl_cons]
    rcases List.mem_cons.mp hj with he | hm
    · subst he
      refine innerFold_isSome_mono v jac _ _ _ _ ?_
      rw [hessStep_lookup]
      rw [if_pos ⟨htri, hz, rfl, rfl, rfl⟩]
      rfl
    · exact ih _ j hm htri hz

/-- The full second-derivative pass stores the second derivative for every
variable of the map and eligible, non-provably-zero Jacobian entry. -/
lemma hessianPass_sets : ∀ (mi : List (String × ℕ)) (jac : List jacobian_entry)
    (st : HessState) (v : String × ℕ), v ∈ mi → ∀ j ∈ jac, v.2 ≤ j.var_index →
      is_zero_tree (differentiate_utree j.ast v.1) = false →
      (lookupHess (hessianPass mi jac st).data v.2 j.var_index j.cons_index).isSome := by
  intro mi
  induction mi with
  | nil => intro jac st v h; exact absurd h (List.not_mem_nil _)
  | cons v2 mi ih =>
    intro jac st v hv j hj htri hz
    unfold hessianPass
    rw [List.foldl_cons]
    rcases List.mem_cons.mp hv with he | hm
    · subst he
      exact hessianPass_isSome_mono mi jac _ _ _ _ (innerFold_sets v jac st j hj htri hz)
    · exact ih jac _ v hm j hj htri hz

/-- Whatever the inner loop stored either was already present or comes from
one of its (eligible, non-provably-zero) Jacobian entries. -/
lemma innerFold_origin (v : String × ℕ) : ∀ (jac : List jacobian_entry)
    (st : HessState) (i jv c : ℕ),
    (lookupHess (jac.foldl (hessStep v) st).data i jv c).isSome →
    (lookupHess st.data i jv c).isSome ∨
      ∃ j ∈ jac, i = v.2 ∧ jv = j.var_index ∧ c = j.cons_index ∧ v.2 ≤ j.var_index ∧
        is_zero_tree (differentiate_utree j.ast v.1) = false := by
  intro jac
  induction jac with
  | nil => intro st i jv c h; exact Or.inl h
  | cons j jac ih =>
    intro st i jv c h
    rw [List.foldl_cons] at h
    rcases ih (hessStep v st j) i jv c h with hold | ⟨j2, hj2, hrest⟩
    · rw [hessStep_lookup] at hold
      by_cases hcond : v.2 ≤ j.var_index ∧
          is_zero_tree (differentiate_utree j.ast v.1) = false ∧
          i = v.2 ∧ jv = j.var_index ∧ c = j.cons_index
      · exact Or.inr ⟨j, List.mem_cons_self _ _,
          hcond.2.2.1, hcond.2.2.2.1, hcond.2.2.2.2, hcond.1, hcond.2.1⟩
      · rw [if_neg hcond] at hold
        exact Or.inl hold
    · exact Or.inr ⟨j2, List.mem_cons_of_mem _ hj2, hrest⟩

/-- Whatever the full pass stored either was already present or comes from a
variable of the map and an eligible, non-provably-zero Jacobian entry. -/
lemma hessianPass_origin : ∀ (mi : List (String × ℕ)) (jac : List jacobian_entry)
    (st : HessState) (i jv c : ℕ),
    (lookupHess (hessianPass mi jac st).data i jv c).isSome →
    (lookupHess st.data i jv c).isSome ∨
      ∃ v ∈ mi, ∃ j ∈ jac, i = v.2 ∧ jv = j.var_index ∧ c = j.cons_index ∧
        v.2 ≤ j.var_index ∧ is_zero_tree (differentiate_utree j.ast v.1) = false := by
  intro mi
  induction mi with
  | nil => intro jac st i jv c h; exact Or.inl h
  | cons v mi ih =>
    intro jac st i jv c h
    unfold hessianPass at h
    rw [List.foldl_cons] at h
    rcases ih jac _ i jv c h with hold | ⟨v2, hv2, hrest⟩
    · rcases innerFold_origin v jac st i jv c hold with hold2 | ⟨j, hj, hrest⟩
      · exact Or.inl hold2
      · exact Or.inr ⟨v, List.mem_cons_self _ _, j, hj, hrest⟩
    · exact Or.inr ⟨v2, List.mem_cons_of_mem _ hv2, hrest⟩

/-- Every record after locate-or-create-and-assign carries either the stored
key or a key already present. -/
lemma mem_storeHess : ∀ (d : List hessian_entry) (i jv c : ℕ) (t : Expr),
    ∀ e ∈ storeHess d i jv c t,
      (e.key1 = i ∧ e.key2 = jv) ∨ ∃ f ∈ d, e.key1 = f.key1 ∧ e.key2 = f.key2 := by
  intro d
  induction d with
  | nil =>
    intro i jv c t e he
    simp only [storeHess, List.mem_singleton] at he
    subst he
    exact Or.inl ⟨rfl, rfl⟩
  | cons f d ih =>
    intro i jv c t e he
    by_cases hfk : f.key1 = i ∧ f.key2 = jv
    · simp only [storeHess, if_pos hfk] at he
      rcases List.mem_cons.mp he with he1 | he2
      · subst he1
        exact Or.inr ⟨f, List.mem_cons_self _ _, rfl, rfl⟩
      · exact Or.inr ⟨e, List.mem_cons_of_mem _ he2, rfl, rfl⟩
    · simp only [storeHess, if_neg hfk] at he
      rcases List.mem_cons.mp he with he1 | he2
      · subst he1
        exact Or.inr ⟨e, List.mem_cons_self _ _, rfl, rfl⟩
      · rcases ih i jv c t e he2 with hk | ⟨g, hg, hk⟩
        · exact Or.inl hk
        · exact Or.inr ⟨g, List.mem_cons_of_mem _ hg, hk⟩

/-- One pass step preserves the triangular-key invariant of the Hessian
records. -/
lemma hessStep_data_keys {v : String × ℕ} {st : HessState} {j : jacobian_entry}
    (hinv : ∀ e ∈ st.data, e.key1 ≤ e.key2) :
    ∀ e ∈ (hessStep v st j).data, e.key1 ≤ e.key2 := by
  intro e he
  unfold hessStep at he
  by_cases htri : j.var_index < v.2
  · rw [if_pos htri] at he
    exact hinv e he
  · rw [if_neg htri] at he
    by_cases hz : is_zero_tree (differentiate_utree j.ast v.1)
    · rw [if_pos hz] at he
      exact hinv e he
    · rw [if_neg hz] at he
      simp only at he
      rcases mem_storeHess st.data v.2 j.var_index j.cons_index _ e he with hk | ⟨f, hf, hk⟩
      · rw [hk.1, hk.2]
        omega
      · rw [hk.1, hk.2]
        exact hinv f hf

/-- The inner loop preserves the triangular-key invariant. -/
lemma innerFold_data_keys (v : String × ℕ) : ∀ (jac : List jacobian_entry)
    (st : HessState), (∀ e ∈ st.data, e.key1 ≤ e.key2) →
    ∀ e ∈ (jac.foldl (hessStep v) st).data, e.key1 ≤ e.key2 := by
  intro jac
  induction jac with
  | nil => intro st hinv; exact hinv
  | cons j jac ih =>
    intro st hinv
    rw [List.foldl_cons]
    exact ih _ (hessStep_data_keys hinv)

/-- The full pass preserves the triangular-key invariant. -/
lemma hessianPass_data_keys : ∀ (mi : List (String × ℕ)) (jac : List jacobian_entry)
    (st : HessState), (∀ e ∈ st.data, e.key1 ≤ e.key2) →
    ∀ e ∈ (hessianPass mi jac st).data, e.key1 ≤ e.key2 := by
  intro mi
  induction mi with
  | nil => intro jac st hinv; exact hinv
  | cons v mi ih =>
    intro jac st hinv
    unfold hessianPass
    rw [List.foldl_cons]
    exact ih jac _ (innerFold_data_keys v jac st hinv)

/-- Membership after a set-style sparsity insertion. -/
lemma mem_insertPair {s : List (ℕ × ℕ)} {q p : ℕ × ℕ} (h : p ∈ insertPair s q) :
    p ∈ s ∨ p = q := by
  unfold insertPair at h
  by_cases hc : s.contains q
  · rw [if_pos hc] at h
    exact Or.inl h
  · rw [if_neg hc] at h
    rcases List.mem_append.mp h with h1 | h1
    · exact Or.inl h1
    · exact Or.inr (List.mem_singleton.mp h1)

/-- One pass step adds only lower-triangular pairs to the sparsity
structure. -/
lemma hessStep_sparsity {v : String × ℕ} {st : HessState} {j : jacobian_entry}
    {p : ℕ × ℕ} (h : p ∈ (hessStep v st j).sparsity) :
    p ∈ st.sparsity ∨ p.1 ≤ p.2 := by
  unfold hessStep at h
  by_cases htri : j.var_index < v.2
  · rw [if_pos htri] at h
    exact Or.inl h
  · rw [if_neg htri] at h
    by_cases hz : is_zero_tree (differentiate_utree j.ast v.1)
    · rw [if_pos hz] at h
      exact Or.inl h
    · rw [if_neg hz] at h
      simp only at h
      rcases mem_insertPair h with h1 | h1
      · exact Or.inl h1
      · rw [h1]
        right
        simpa using Nat.le_of_not_lt htri

/-- The inner loop adds only lower-triangular pairs to the sparsity
structure. -/
lemma innerFold_sparsity (v : String × ℕ) : ∀ (jac : List jacobian_entry)
    (st : HessState) (p : ℕ × ℕ), p ∈ (jac.foldl (hessStep v) st).sparsity →
    p ∈ st.sparsity ∨ p.1 ≤ p.2 := by
  intro jac
  induction jac with
  | nil => intro st p h; exact Or.inl h
  | cons j jac ih =>
    intro st p h
    rw [List.foldl_cons] at h
    rcases ih _ p h with h1 | h1
    · exact hessStep_sparsity h1
    · exact Or.inr h1

/-- The full second-derivative pass adds only lower-triangular pairs to the
sparsity structure. -/
lemma hessianPass_sparsity : ∀ (mi : List (String × ℕ)) (jac : List jacobian_entry)
    (st : HessState) (p : ℕ × ℕ), p ∈ (hessianPass mi jac st).sparsity →
    p ∈ st.sparsity ∨ p.1 ≤ p.2 := by
  intro mi
  induction mi with
  | nil => intro jac st p h; exact Or.inl h
  | cons v mi ih =>
    intro jac st p h
    unfold hessianPass at h
    rw [List.foldl_cons] at h
    rcases ih jac _ p h with h1 | h1
    · exact innerFold_sparsity v jac st p h1
    · exact Or.inr h1

/-! Constraint-list lemmas. -/

/-- Whether a constraint kind is a Mass Balance kind. -/
def isMassKind : ConstraintKind → Bool
  | ConstraintKind.MassBalance _ => true
  | _ => false

/-- Membership characterization of the sublattice-balance constraints. -/
lemma mem_sublatticeConstraints {cond : evalconditions} {pc : List (String × Phase)}
    {c : Constraint} :
    c ∈ sublatticeConstraints cond pc ↔
      ∃ pr ∈ pc, cond.statusOf pr.1 = some PhaseStatus.ENTERED ∧
        ∃ sl ∈ pr.2.sublattices.enum, 1 < (trackedSpecies cond sl.2).length ∧
          c = SublatticeBalanceConstraint pr.1 sl.1 (trackedSpecies cond sl.2) := by
  unfold sublatticeConstraints
  rw [List.mem_flatMap]
  constructor
  · rintro ⟨pr, hpr, hc⟩
    by_cases hst : cond.statusOf pr.1 ≠ some PhaseStatus.ENTERED
    · rw [if_pos hst] at hc
      exact absurd hc (List.not_mem_nil _)
    · rw [if_neg hst] at hc
      rw [List.mem_flatMap] at hc
      obtain ⟨sl, hsl, hc⟩ := hc
      by_cases hlen : 1 < (trackedSpecies cond sl.2).length
      · rw [if_pos hlen] at hc
        rw [List.mem_singleton] at hc
        exact ⟨pr, hpr, not_not.mp hst, sl, hsl, hlen, hc⟩
      · rw [if_neg hlen] at hc
        exact absurd hc (List.not_mem_nil _)
  · rintro ⟨pr, hpr, hst, sl, hsl, hlen, hc⟩
    refine ⟨pr, hpr, ?_⟩
    rw [if_neg (not_not.mpr hst)]
    rw [List.mem_flatMap]
    refine ⟨sl, hsl, ?_⟩
    rw [if_pos hlen]
    rw [List.mem_singleton]
    exact hc

/-- Membership characterization of the sublattice fixed-index
contributions. -/
lemma mem_sublatticeFixed {cond : evalconditions} {mi : List (String × ℕ)}
    {pc : List (String × Phase)} {v : ℕ} :
    v ∈ sublatticeFixed cond mi pc ↔
      ∃ pr ∈ pc, cond.statusOf pr.1 = some PhaseStatus.ENTERED ∧
        ∃ sl ∈ pr.2.sublattices.enum, (trackedSpecies cond sl.2).length = 1 ∧
          v = lookupIdx mi
            (siteFracName pr.1 sl.1 ((trackedSpecies cond sl.2).headD "")) := by
  unfold sublatticeFixed
  rw [List.mem_flatMap]
  constructor
  · rintro ⟨pr, hpr, hc⟩
    by_cases hst : cond.statusOf pr.1 ≠ some PhaseStatus.ENTERED
    · rw [if_pos hst] at hc
      exact absurd hc (List.not_mem_nil _)
    · rw [if_neg hst] at hc
      rw [List.mem_flatMap] at hc
      obtain ⟨sl, hsl, hc⟩ := hc
      by_cases hlen : (trackedSpecies cond sl.2).length = 1
      · rw [if_pos hlen] at hc
        rw [List.mem_singleton] at hc
        exact ⟨pr, hpr, not_not.mp hst, sl, hsl, hlen, hc⟩
      · rw [if_neg hlen] at hc
        exact absurd hc (List.not_mem_nil _)
  · rintro ⟨pr, hpr, hst, sl, hsl, hlen, hc⟩
    refine ⟨pr, hpr, ?_⟩
    rw [if_neg (not_not.mpr hst)]
    rw [List.mem_flatMap]
    refine ⟨sl, hsl, ?_⟩
    rw [if_pos hlen]
    rw [List.mem_singleton]
    exact hc

/-- Membership characterization of the phase-fraction fixed-index
contribution. -/
lemma mem_phaseFracFixed {DB : Database} {cond : evalconditions} {env : ExternalEnv}
    {v : ℕ} :
    v ∈ phaseFracFixed DB cond env ↔
      activephases DB cond env = 1 ∧
        ∃ pr, (buildPhaseCol DB cond).head? = some pr ∧
          v = lookupIdx (build_variable_map (buildPhaseCol DB cond) cond)
            (phaseFracName pr.1) := by
  unfold phaseFracFixed
  by_cases hone : activephases DB cond env = 1
  · rw [if_pos hone]
    cases hh : (buildPhaseCol DB cond).head? with
    | none => simp [hone, hh]
    | some pr => simp [hone, hh]
  · rw [if_neg hone]
    simp [hone]

/-- The Mass Balance constraints are exactly the tail that the user pass
appends. -/
lemma mem_mandatory_not_mass {DB : Database} {cond : evalconditions} {env : ExternalEnv}
    {c : Constraint}
    (h : c ∈ phaseFracConstraints DB cond env ++
      sublatticeConstraints cond (buildPhaseCol DB cond)) :
    isMassKind c.kind = false := by
  rcases List.mem_append.mp h with h1 | h1
  · unfold phaseFracConstraints at h1
    by_cases hact : 1 < activephases DB cond env
    · rw [if_pos hact] at h1
      rw [List.mem_singleton] at h1
      rw [h1]
      rfl
    · rw [if_neg hact] at h1
      exact absurd h1 (List.not_mem_nil _)
  · obtain ⟨pr, _, _, sl, _, _, hc⟩ := mem_sublatticeConstraints.mp h1
    rw [hc]
    rfl

/-- The inner sublattice loop of one phase contributes no constraint tagged
with a sublattice index absent from the enumerated list. -/
lemma countP_sublConsInner_zero (cond : evalconditions) (p : String) (si : ℕ)
    (l : List (ℕ × Sublattice)) (hsi : si ∉ l.map Prod.fst) :
    ((l.flatMap fun sl =>
        if 1 < (trackedSpecies cond sl.2).length then
          [SublatticeBalanceConstraint p sl.1 (trackedSpecies cond sl.2)]
        else []).countP
      (fun c => c.kind == ConstraintKind.SublatticeBalance p si)) = 0 := by
  rw [List.countP_eq_zero]
  intro c hc
  rw [List.mem_flatMap] at hc
  obtain ⟨sl, hsl, hc⟩ := hc
  by_cases hlen : 1 < (trackedSpecies cond sl.2).length
  · rw [if_pos hlen] at hc
    rw [List.mem_singleton] at hc
    have hne : sl.1 ≠ si := by
      intro he
      exact hsi (he ▸ List.mem_map.mpr ⟨sl, hsl, rfl⟩)
    rw [hc]
    simp [SublatticeBalanceConstraint, hne]
  · rw [if_neg hlen] at hc
    exact absurd hc (List.not_mem_nil _)

/-- The inner sublattice loop of phase `p` contributes the constraint tagged
`(p, si)` exactly when sublattice `si` has more than one tracked species. -/
lemma countP_sublConsInner (cond : evalconditions) (p : String) (si : ℕ)
    (sl : Sublattice) : ∀ (l : List (ℕ × Sublattice)), (l.map Prod.fst).Nodup →
    (si, sl) ∈ l →
    ((l.flatMap fun q =>
        if 1 < (trackedSpecies cond q.2).length then
          [SublatticeBalanceConstraint p q.1 (trackedSpecies cond q.2)]
        else []).countP
      (fun c => c.kind == ConstraintKind.SublatticeBalance p si)) =
      if 1 < (trackedSpecies cond sl).length then 1 else 0 := by
  intro l
  induction l with
  | nil => intro _ h; exact absurd h (List.not_mem_nil _)
  | cons a l ih =>
    intro hnd hm
    simp only [List.map_cons, List.nodup_cons] at hnd
    rw [List.flatMap_cons, List.countP_append]
    rcases List.mem_cons.mp hm with he | hm2
    · have hfst : si = a.1 := congrArg Prod.fst he
      have hrest : si ∉ l.map Prod.fst := by
        rw [hfst]
        exact hnd.1
      rw [countP_sublConsInner_zero cond p si l hrest]
      rw [← he]
      by_cases hlen : 1 < (trackedSpecies cond sl).length
      · rw [if_pos hlen, if_pos hlen]
        simp [SublatticeBalanceConstraint]
      · rw [if_neg hlen, if_neg hlen]
        simp
    · have hasi : a.1 ≠ si := by
        intro he2
        exact hnd.1 (he2 ▸ List.mem_map.mpr ⟨(si, sl), hm2, rfl⟩)
      rw [ih hnd.2 hm2]
      have hblock :
          ((if 1 < (trackedSpecies cond a.2).length then
            [SublatticeBalanceConstraint p a.1 (trackedSpecies cond a.2)]
          else []).countP
            (fun c => c.kind == ConstraintKind.SublatticeBalance p si)) = 0 := by
        by_cases hlen : 1 < (trackedSpecies cond a.2).length
        · rw [if_pos hlen]
          simp [SublatticeBalanceConstraint, hasi]
        · rw [if_neg hlen]
          rfl
      rw [hblock]
      simp

/-- Phases other than `p` contribute no constraint tagged with phase `p`. -/
lemma countP_sublCons_zero (cond : evalconditions) (p : String) (si : ℕ)
    (pc : List (String × Phase)) (hp : p ∉ pc.map Prod.fst) :
    ((sublatticeConstraints cond pc).countP
      (fun c => c.kind == ConstraintKind.SublatticeBalance p si)) = 0 := by
  rw [List.countP_eq_zero]
  intro c hc
  obtain ⟨pr, hpr, _, sl, _, _, hce⟩ := mem_sublatticeConstraints.mp hc
  have hne : pr.1 ≠ p := by
    intro he
    exact hp (he ▸ List.mem_map.mpr ⟨pr, hpr, rfl⟩)
  rw [hce]
  simp [SublatticeBalanceConstraint, hne]

/-- The sublattice pass contributes the constraint tagged `(p, si)` exactly
when that (phase, sublattice) pair collects more than one tracked species. -/
lemma countP_sublCons (cond : evalconditions) {pc : List (String × Phase)}
    (hnd : (pc.map Prod.fst).Nodup)
    (hst : ∀ pr ∈ pc, cond.statusOf pr.1 = some PhaseStatus.ENTERED)
    {p : String} {ph : Phase} (hmem : (p, ph) ∈ pc) {si : ℕ} {sl : Sublattice}
    (hsl : (si, sl) ∈ ph.sublattices.enum) :
    ((sublatticeConstraints cond pc).countP
      (fun c => c.kind == ConstraintKind.SublatticeBalance p si)) =
      if 1 < (trackedSpecies cond sl).length then 1 else 0 := by
  induction pc with
  | nil => exact absurd hmem (List.not_mem_nil _)
  | cons q pc ih =>
    simp only [List.map_cons, List.nodup_cons] at hnd
    have hqst : cond.statusOf q.1 = some PhaseStatus.ENTERED :=
      hst q (List.mem_cons_self _ _)
    have hsplit : sublatticeConstraints cond (q :: pc) =
        (if cond.statusOf q.1 ≠ some PhaseStatus.ENTERED then []
          else q.2.sublattices.enum.flatMap fun sl =>
            if 1 < (trackedSpecies cond sl.2).length then
              [SublatticeBalanceConstraint q.1 sl.1 (trackedSpecies cond sl.2)]
            else []) ++ sublatticeConstraints cond pc := by
      unfold sublatticeConstraints
      rw [List.flatMap_cons]
    rw [hsplit, List.countP_append]
    rcases List.mem_cons.mp hmem with he | hm2
    · have hfst : p = q.1 := congrArg Prod.fst he
      have hsnd : ph = q.2 := congrArg Prod.snd he
      have hrest : p ∉ pc.map Prod.fst := by
        rw [hfst]
        exact hnd.1
      rw [countP_sublCons_zero cond p si pc hrest]
      rw [if_neg (not_not.mpr hqst)]
      rw [← hfst]
      rw [countP_sublConsInner cond p si sl q.2.sublattices.enum
        (by simpa using List.nodup_enum_map_fst q.2.sublattices) (hsnd ▸ hsl)]
      simp
    · have hqp : q.1 ≠ p := by
        intro he2
        exact hnd.1 (he2 ▸ List.mem_map.mpr ⟨(p, ph), hm2, rfl⟩)
      have hblock :
          (((if cond.statusOf q.1 ≠ some PhaseStatus.ENTERED then []
            else q.2.sublattices.enum.flatMap fun sl =>
              if 1 < (trackedSpecies cond sl.2).length then
                [SublatticeBalanceConstraint q.1 sl.1 (trackedSpecies cond sl.2)]
              else []).countP
            (fun c => c.kind == ConstraintKind.SublatticeBalance p si))) = 0 := by
        rw [if_neg (not_not.mpr hqst)]
        rw [List.countP_eq_zero]
        intro c hc
        rw [List.mem_flatMap] at hc
        obtain ⟨sl2, _, hc⟩ := hc
        by_cases hlen : 1 < (trackedSpecies cond sl2.2).length
        · rw [if_pos hlen] at hc
          rw [List.mem_singleton] at hc
          rw [hc]
          simp [SublatticeBalanceConstraint, hqp]
        · rw [if_neg hlen] at hc
          exact absurd hc (List.not_mem_nil _)
      rw [hblock]
      rw [ih hnd.2 (fun pr hpr => hst pr (List.mem_cons_of_mem _ hpr)) hm2]
      simp

/-- The keys of the assembled composition-set collection are the collected
phase names. -/
lemma comp_sets_keys (DB : Database) (cond : evalconditions) (env : ExternalEnv) :
    ((compSetsFold DB cond env).2.map Prod.fst).Nodup := by
  rw [compSetsFold_eq]
  simp only [List.map_map]
  have hc : (Prod.fst ∘ fun pr : String × Phase => (pr.1, mkCompSet env pr.1)) = Prod.fst :=
    rfl
  rw [hc]
  exact buildPhaseCol_keys_nodup DB cond

/-! The claims. -/

/-- Claim C3: every Hessian Entry created by the constraint
second-derivative pass is keyed by a pair `(i, j)` with `i ≤ j` — the
triangular skip discards every combination with the variable index above the
Jacobian entry's — and every pair that pass adds to the global Sparsity
Structure satisfies the same convention. -/
theorem hessian_keys_triangular :
    (∀ (DB : Database) (cond : evalconditions) (env : ExternalEnv),
      ∀ e ∈ (GibbsOpt DB cond env).constraint_hessian_data, e.key1 ≤ e.key2)
    ∧ (∀ (mi : List (String × ℕ)) (jac : List jacobian_entry) (st : HessState),
      ∀ p ∈ (hessianPass mi jac st).sparsity, p ∈ st.sparsity ∨ p.1 ≤ p.2) := by
  constructor
  · intro DB cond env e he
    rw [GibbsOpt_hessian] at he
    refine hessianPass_data_keys _ _ _ ?_ e he
    intro e2 h2
    exact absurd h2 (List.not_mem_nil _)
  · intro mi jac st p hp
    exact hessianPass_sparsity mi jac st p hp

/-- Witness for C3 on the concrete two-phase configuration. -/
theorem hessian_keys_triangular_witness : (0 : ℕ) ≤ 1 :=
  hessian_keys_triangular.1 exDB exCond exEnv
    (hessian_entry.mk 0 1 [(3, Expr.sub (Expr.numI 1) (Expr.numI 0))]) (by decide)

/-- Claim C7: when the minima locator returns exactly one minimum for an
active phase's composition model, that single point vector is set as the
model's starting point through `set_starting_point`. -/
theorem single_minimum_pins_starting_point (DB : Database) (cond : evalconditions)
    (env : ExternalEnv) (p : String) (ph : Phase) (m : List ℚ)
    (h1 : (p, ph) ∈ buildPhaseCol DB cond) (h2 : env.LocateMinima p = [m]) :
    ((GibbsOpt DB cond env).comp_sets.find? (fun q => q.1 == p)) =
      some (p, CompositionSet.mk (some m)) := by
  rw [GibbsOpt_comp_sets]
  have hmk : mkCompSet env p = CompositionSet.mk (some m) := by
    unfold mkCompSet
    rw [h2]
    rfl
  have hmem : (p, mkCompSet env p) ∈ (compSetsFold DB cond env).2 := by
    rw [compSetsFold_eq]
    exact List.mem_map.mpr ⟨(p, ph), h1, rfl⟩
  rw [find?_of_keys_nodup (comp_sets_keys DB cond env) hmem, hmk]

/-- Witness for C7 on the concrete two-phase configuration. -/
theorem single_minimum_pins_starting_point_witness :
    ((GibbsOpt exDB exCond exEnv).comp_sets.find? (fun q => q.1 == "ALPHA")) =
      some ("ALPHA", CompositionSet.mk (some [1, 0, 0])) :=
  single_minimum_pins_starting_point exDB exCond exEnv "ALPHA" exPhaseA [1, 0, 0]
    (by decide) rfl

/-- Claim C9: when the minima locator returns more than one minimum for an
active phase, the constructor still creates exactly one Composition Model
for that phase and sets no starting point on it — the multi-minimum branch
performs no action. -/
theorem multiple_minima_single_model (DB : Database) (cond : evalconditions)
    (env : ExternalEnv) (p : String) (ph : Phase)
    (h1 : (p, ph) ∈ buildPhaseCol DB cond) (h2 : 1 < (env.LocateMinima p).length) :
    ((GibbsOpt DB cond env).comp_sets.countP (fun q => q.1 == p)) = 1 ∧
    ((GibbsOpt DB cond env).comp_sets.find? (fun q => q.1 == p)) =
      some (p, CompositionSet.mk none) := by
  rw [GibbsOpt_comp_sets]
  have hmk : mkCompSet env p = CompositionSet.mk none := by
    unfold mkCompSet
    rw [if_neg (by simp; omega)]
  have hmem : (p, mkCompSet env p) ∈ (compSetsFold DB cond env).2 := by
    rw [compSetsFold_eq]
    exact List.mem_map.mpr ⟨(p, ph), h1, rfl⟩
  constructor
  · exact countP_key_one (comp_sets_keys DB cond env) hmem
  · rw [find?_of_keys_nodup (comp_sets_keys DB cond env) hmem, hmk]

/-- Witness for C9 on the concrete two-phase configuration with a
two-minimum locator. -/
theorem multiple_minima_single_model_witness :
    ((GibbsOpt exDB exCond exEnvTwo).comp_sets.countP (fun q => q.1 == "ALPHA")) = 1 :=
  (multiple_minima_single_model exDB exCond exEnvTwo "ALPHA" exPhaseA
    (by decide) (by decide)).1

/-- Claim C8: when the conditions supply no tracked elements or no active
phases are found, the failure is reported on the observability channel at
the highest severity and construction still completes problem assembly (one
composition model per collected phase; the constructor is a total
function). -/
theorem config_failures_reported (DB : Database) (cond : evalconditions)
    (env : ExternalEnv) :
    (cond.elements = [] →
      (Severity.critical, "No components entered!") ∈ (GibbsOpt DB cond env).log)
    ∧ (buildPhaseCol DB cond = [] →
      (Severity.critical, "No phases found!") ∈ (GibbsOpt DB cond env).log)
    ∧ (GibbsOpt DB cond env).comp_sets.length = (GibbsOpt DB cond env).phase_col.length := by
  refine ⟨?_, ?_, ?_⟩
  · intro h
    rw [GibbsOpt_log]
    simp [h]
  · intro h
    rw [GibbsOpt_log]
    simp [h]
  · rw [GibbsOpt_comp_sets, GibbsOpt_phase_col, compSetsFold_eq]
    simp

/-- Witness for C8 on a configuration with an empty element list. -/
theorem config_failures_reported_witness :
    (Severity.critical, "No components entered!") ∈ (GibbsOpt exDB exCondNoElem exEnv).log :=
  (config_failures_reported exDB exCondNoElem exEnv).1 rfl

/-- Claim C1: for every variable of the Variable Index Map and every
constraint of the Constraint Manager, a Jacobian Entry for the pair
(constraint index, variable index) is built and retained if and only if the
zero-detection test — differentiate both sides with respect to the variable,
simplify both, drop when both fold to numerically equal numeric constants —
does not fire. -/
theorem jacobian_entry_retained_iff (DB : Database) (cond : evalconditions)
    (env : ExternalEnv) (n : String) (v : ℕ)
    (hmem : (n, v) ∈ (GibbsOpt DB cond env).main_indices)
    (ci : ℕ) (c : Constraint)
    (hc : (GibbsOpt DB cond env).constraints[ci]? = some c) :
    (∃ e ∈ (GibbsOpt DB cond env).jac_g_trees, e.cons_index = ci ∧ e.var_index = v)
      ↔ zeroTest c n = false := by
  rw [GibbsOpt_jac_g_trees]
  rw [GibbsOpt_main_indices] at hmem
  rw [GibbsOpt_constraints] at hc
  constructor
  · rintro ⟨e, he, hec, hev⟩
    obtain ⟨v2, hv2, pr, hpr, hz, hee⟩ := mem_jacPass.mp he
    rw [hee] at hec hev
    simp only at hec hev
    have hnd := build_variable_map_snd_nodup (buildPhaseCol DB cond) cond
    have hm2 : (v2.1, v) ∈ build_variable_map (buildPhaseCol DB cond) cond := by
      rw [← hev]
      rw [Prod.mk.eta]
      exact hv2
    have hn : n = v2.1 := eq_fst_of_nodup_snd hnd hmem hm2
    have hg : (allConstraints DB cond env)[pr.1]? = some pr.2 :=
      List.mk_mem_enum_iff_getElem?.mp hpr
    rw [hec] at hg
    rw [hg] at hc
    have hcp : c = pr.2 := (Option.some.inj hc).symm
    rw [hn, hcp]
    exact hz
  · intro hz
    have hpr : (ci, c) ∈ (allConstraints DB cond env).enum :=
      List.mk_mem_enum_iff_getElem?.mpr hc
    exact ⟨jacobian_entry.mk ci v false (jacTree c n),
      mem_jacPass.mpr ⟨(n, v), hmem, (ci, c), hpr, hz, rfl⟩, rfl, rfl⟩

/-- Witness for C1 on the concrete two-phase configuration: the
Phase-Fraction Balance constraint keeps its entry for the first phase's
fraction variable. -/
theorem jacobian_entry_retained_iff_witness :
    ∃ e ∈ (GibbsOpt exDB exCond exEnv).jac_g_trees, e.cons_index = 0 ∧ e.var_index = 0 :=
  (jacobian_entry_retained_iff exDB exCond exEnv "ALPHA_FRAC" 0 (by decide) 0
    (PhaseFractionBalanceConstraint (buildPhaseCol exDB exCond)) (by decide)).mpr (by decide)

/-- Claim C2: in the Hessian second-derivative pass, for every variable `i`
of the map and every retained Jacobian Entry `j` with `i`'s index not above
`j`'s variable index, the second-derivative tree is stored if and only if it
is not a provable zero — a tree that simplifies to the zero constant, with no
constant-equality short-circuit. -/
theorem hessian_second_derivative_skipped_iff (DB : Database) (cond : evalconditions)
    (env : ExternalEnv) (n : String) (i : ℕ)
    (hmem : (n, i) ∈ (GibbsOpt DB cond env).main_indices)
    (j : jacobian_entry) (hj : j ∈ (GibbsOpt DB cond env).jac_g_trees)
    (htri : i ≤ j.var_index) :
    (lookupHess (GibbsOpt DB cond env).constraint_hessian_data
        i j.var_index j.cons_index).isSome
      ↔ is_zero_tree (differentiate_utree j.ast n) = false := by
  rw [GibbsOpt_hessian]
  rw [GibbsOpt_main_indices] at hmem
  rw [GibbsOpt_jac_g_trees] at hj
  constructor
  · intro hsome
    rcases hessianPass_origin _ _ _ _ _ _ hsome with h0 | ⟨v2, hv2, j2, hj2, hkey⟩
    · simp [lookupHess] at h0
    · obtain ⟨hi, hjv, hc, htri2, hz⟩ := hkey
      have hnd := build_variable_map_snd_nodup (buildPhaseCol DB cond) cond
      have hm2 : (v2.1, i) ∈ build_variable_map (buildPhaseCol DB cond) cond := by
        rw [hi]
        rw [Prod.mk.eta]
        exact hv2
      have hn : n = v2.1 := eq_fst_of_nodup_snd hnd hmem hm2
      have hjj : j2 = j := jacPass_key_unique hnd hj2 hj hc.symm hjv.symm
      rw [hn, ← hjj]
      exact hz
  · intro hz
    exact hessianPass_sets _ _ _ (n, i) hmem j hj htri hz

/-- Witness for C2 on the concrete two-phase configuration: the second
derivative of the Mass Balance entry for the first site fraction, taken with
respect to the first phase-fraction variable, is stored. -/
theorem hessian_second_derivative_skipped_iff_witness :
    (lookupHess (GibbsOpt exDB exCond exEnv).constraint_hessian_data 0 1 3).isSome = true :=
  (hessian_second_derivative_skipped_iff exDB exCond exEnv "ALPHA_FRAC" 0 (by decide)
    (jacobian_entry.mk 3 1 false (Expr.sub (Expr.var "ALPHA_FRAC") (Expr.numI 0)))
    (by decide) (by decide)).mpr (by decide)

/-- Claim C4: a Phase-Fraction Balance constraint is present if and only if
more than one phase is active; with exactly one active phase, no such
constraint exists and that phase's fraction variable index is pushed onto
the fixed-index list instead. -/
theorem phase_fraction_balance_iff (DB : Database) (cond : evalconditions)
    (env : ExternalEnv) :
    ((GibbsOpt DB cond env).constraints.countP
        (fun c => c.kind == ConstraintKind.PhaseFractionBalance))
      = (if 1 < activephases DB cond env then 1 else 0)
    ∧ (∀ (p : String) (ph : Phase), activephases DB cond env = 1 →
        (buildPhaseCol DB cond).head? = some (p, ph) →
        lookupIdx (GibbsOpt DB cond env).main_indices (phaseFracName p)
          ∈ (GibbsOpt DB cond env).fixed_indices) := by
  constructor
  · rw [GibbsOpt_constraints]
    unfold allConstraints
    rw [List.countP_append, List.countP_append]
    have hsub : ((sublatticeConstraints cond (buildPhaseCol DB cond)).countP
        (fun c => c.kind == ConstraintKind.PhaseFractionBalance)) = 0 := by
      rw [List.countP_eq_zero]
      intro c hc
      obtain ⟨pr, _, _, sl, _, _, hce⟩ := mem_sublatticeConstraints.mp hc
      rw [hce]
      simp [SublatticeBalanceConstraint]
    have hmass : ((cond.xfrac.map
          (fun pr => MassBalanceConstraint (buildPhaseCol DB cond) pr.1 pr.2)).countP
        (fun c => c.kind == ConstraintKind.PhaseFractionBalance)) = 0 := by
      rw [List.countP_eq_zero]
      intro c hc
      obtain ⟨pr, _, hce⟩ := List.mem_map.mp hc
      rw [← hce]
      simp [MassBalanceConstraint]
    rw [hsub, hmass]
    unfold phaseFracConstraints
    by_cases hact : 1 < activephases DB cond env
    · rw [if_pos hact, if_pos hact]
      simp [PhaseFractionBalanceConstraint]
    · rw [if_neg hact, if_neg hact]
      simp
  · intro p ph hone hhead
    rw [GibbsOpt_fixed_indices, GibbsOpt_main_indices]
    unfold fixedIndices
    rw [List.mem_append]
    left
    unfold phaseFracFixed
    rw [if_pos hone, hhead]
    exact List.mem_singleton.mpr rfl

/-- Witness for C4 on the concrete single-phase configuration: the phase's
fraction variable index is pinned. -/
theorem phase_fraction_balance_iff_witness :
    lookupIdx (GibbsOpt exDBOne exCondOne exEnv).main_indices (phaseFracName "ALPHA")
      ∈ (GibbsOpt exDBOne exCondOne exEnv).fixed_indices :=
  (phase_fraction_balance_iff exDBOne exCondOne exEnv).2 "ALPHA" exPhaseA
    (by decide) (by decide)

/-- Claim C5: for every (active phase, sublattice) pair, with the tracked
species being those of the sublattice present in the conditions' element
list — more than one tracked species yields exactly one Sublattice Balance
constraint for that pair, any other count yields none; and the fixed-index
list consists exactly of the single-phase fraction pin and the site-fraction
pins of the pairs with exactly one tracked species. -/
theorem sublattice_balance_cases (DB : Database) (cond : evalconditions)
    (env : ExternalEnv) :
    (∀ (p : String) (ph : Phase), (p, ph) ∈ buildPhaseCol DB cond →
      ∀ (si : ℕ) (sl : Sublattice), (si, sl) ∈ ph.sublattices.enum →
        ((GibbsOpt DB cond env).constraints.countP
            (fun c => c.kind == ConstraintKind.SublatticeBalance p si))
          = (if 1 < (trackedSpecies cond sl).length then 1 else 0))
    ∧ (∀ v : ℕ, v ∈ (GibbsOpt DB cond env).fixed_indices ↔
        (activephases DB cond env = 1 ∧
          ∃ pr, (buildPhaseCol DB cond).head? = some pr ∧
            v = lookupIdx (GibbsOpt DB cond env).main_indices (phaseFracName pr.1))
        ∨ (∃ pr ∈ buildPhaseCol DB cond, ∃ sl ∈ pr.2.sublattices.enum,
            (trackedSpecies cond sl.2).length = 1 ∧
            v = lookupIdx (GibbsOpt DB cond env).main_indices
              (siteFracName pr.1 sl.1 ((trackedSpecies cond sl.2).headD "")))) := by
  constructor
  · intro p ph hmem si sl hsl
    rw [GibbsOpt_constraints]
    unfold allConstraints
    rw [List.countP_append, List.countP_append]
    have hpf : ((phaseFracConstraints DB cond env).countP
        (fun c => c.kind == ConstraintKind.SublatticeBalance p si)) = 0 := by
      rw [List.countP_eq_zero]
      intro c hc
      unfold phaseFracConstraints at hc
      by_cases hact : 1 < activephases DB cond env
      · rw [if_pos hact] at hc
        rw [List.mem_singleton] at hc
        rw [hc]
        simp [PhaseFractionBalanceConstraint]
      · rw [if_neg hact] at hc
        exact absurd hc (List.not_mem_nil _)
    have hmass : ((cond.xfrac.map
          (fun pr => MassBalanceConstraint (buildPhaseCol DB cond) pr.1 pr.2)).countP
        (fun c => c.kind == ConstraintKind.SublatticeBalance p si)) = 0 := by
      rw [List.countP_eq_zero]
      intro c hc
      obtain ⟨pr, _, hce⟩ := List.mem_map.mp hc
      rw [← hce]
      simp [MassBalanceConstraint]
    rw [hpf, hmass]
    rw [countP_sublCons cond (buildPhaseCol_keys_nodup DB cond)
      (buildPhaseCol_status DB cond) hmem hsl]
    simp
  · intro v
    rw [GibbsOpt_fixed_indices, GibbsOpt_main_indices]
    unfold fixedIndices
    rw [List.mem_append]
    constructor
    · intro h
      rcases h with h | h
      · exact Or.inl (mem_phaseFracFixed.mp h)
      · obtain ⟨pr, hpr, _, sl, hsl, hlen, hv⟩ := mem_sublatticeFixed.mp h
        exact Or.inr ⟨pr, hpr, sl, hsl, hlen, hv⟩
    · intro h
      rcases h with h | ⟨pr, hpr, sl, hsl, hlen, hv⟩
      · exact Or.inl (mem_phaseFracFixed.mpr h)
      · refine Or.inr (mem_sublatticeFixed.mpr ⟨pr, hpr, ?_, sl, hsl, hlen, hv⟩)
        exact buildPhaseCol_status DB cond pr hpr

/-- Witness for C5 on the concrete two-phase configuration: the first
phase's only sublattice has two tracked species. -/
theorem sublattice_balance_cases_witness :
    ((GibbsOpt exDB exCond exEnv).constraints.countP
        (fun c => c.kind == ConstraintKind.SublatticeBalance "ALPHA" 0))
      = (if 1 < (trackedSpecies exCond (Sublattice.mk ["X", "Y"])).length then 1 else 0) :=
  (sublattice_balance_cases exDB exCond exEnv).1 "ALPHA" exPhaseA (by decide) 0
    (Sublattice.mk ["X", "Y"]) (by decide)

/-- Claim C6: the constraint list is the mandatory constraints followed by
exactly one Mass Balance constraint per user-specified target mole fraction,
in insertion order — the Mass Balance constraints occupy the highest
constraint indices. -/
theorem mass_balance_appended (DB : Database) (cond : evalconditions)
    (env : ExternalEnv) :
    (GibbsOpt DB cond env).constraints =
      (GibbsOpt DB cond env).constraints.filter (fun c => !isMassKind c.kind)
        ++ cond.xfrac.map
          (fun pr => MassBalanceConstraint (buildPhaseCol DB cond) pr.1 pr.2) := by
  rw [GibbsOpt_constraints]
  unfold allConstraints
  rw [List.append_assoc, List.filter_append, List.filter_append]
  have h1 : ((phaseFracConstraints DB cond env).filter (fun c => !isMassKind c.kind))
      = phaseFracConstraints DB cond env := by
    rw [List.filter_eq_self]
    intro c hc
    have := mem_mandatory_not_mass (List.mem_append.mpr (Or.inl hc))
    simp [this]
  have h2 : ((sublatticeConstraints cond (buildPhaseCol DB cond)).filter
      (fun c => !isMassKind c.kind)) = sublatticeConstraints cond (buildPhaseCol DB cond) := by
    rw [List.filter_eq_self]
    intro c hc
    have hmm := @mem_mandatory_not_mass DB cond env c (List.mem_append.mpr (Or.inr hc))
    simp [hmm]
  have h3 : ((cond.xfrac.map
      (fun pr => MassBalanceConstraint (buildPhaseCol DB cond) pr.1 pr.2)).filter
      (fun c => !isMassKind c.kind)) = [] := by
    rw [List.filter_eq_nil_iff]
    intro c hc
    obtain ⟨pr, _, hce⟩ := List.mem_map.mp hc
    rw [← hce]
    simp [MassBalanceConstraint, isMassKind]
  rw [h1, h2, h3]
  rw [List.append_nil, List.append_assoc]

/-- Claim C10: variable indices on the fixed-index list are not excluded
from derivative assembly — on the concrete single-phase configuration the
pinned phase-fraction variable index carries a retained Jacobian entry (for
the Mass Balance constraint). -/
theorem fixed_variables_in_jacobian :
    ∃ e ∈ (GibbsOpt exDBOne exCondOne exEnv).jac_g_trees,
      e.var_index ∈ (GibbsOpt exDBOne exCondOne exEnv).fixed_indices := by
  decide

end Gibbs
